import Mathlib

set_option maxHeartbeats 1000000

namespace Squrly

/-- Characters of a JavaScript string, modelled as a list of characters.
The repository iterates strings with for..of, i.e. code point by code point. -/
abbrev Str := List Char

/-! ## UrlParser: the streaming bracket tokenizer (src/lib/UrlParser.ts)

State fields mirror the class fields bracketLevel, currentContent, isEscaped.
The buffer field of the class is never used by _transform and is omitted. -/

structure ParserState where
  bracketLevel : Nat
  currentContent : Str
  isEscaped : Bool
deriving DecidableEq

/-- Initial state of a fresh UrlParser instance. -/
def initState : ParserState := ⟨0, [], false⟩

/-- One character of the loop body of UrlParser._transform.
Returns the updated state and the list of bracket groups pushed (0 or 1). -/
def stepChar (st : ParserState) (c : Char) : ParserState × List Str :=
  if st.isEscaped then
    ({ st with
        currentContent :=
          if st.bracketLevel > 0 then st.currentContent ++ [c] else st.currentContent,
        isEscaped := false }, [])
  else if c = '\\' then
    ({ st with
        isEscaped := true,
        currentContent :=
          if st.bracketLevel > 0 then st.currentContent ++ [c] else st.currentContent }, [])
  else if c = '[' then
    if st.bracketLevel + 1 = 1 then
      ({ st with bracketLevel := st.bracketLevel + 1, currentContent := ['['] }, [])
    else
      ({ st with bracketLevel := st.bracketLevel + 1,
                 currentContent := st.currentContent ++ [c] }, [])
  else if c = ']' then
    if st.bracketLevel > 0 then
      if st.bracketLevel - 1 = 0 then
        (⟨0, [], false⟩, [st.currentContent ++ [c]])
      else
        ({ st with bracketLevel := st.bracketLevel - 1,
                   currentContent := st.currentContent ++ [c] }, [])
    else
      (st, [])
  else
    if st.bracketLevel > 0 then
      ({ st with currentContent := st.currentContent ++ [c] }, [])
    else
      (st, [])

/-- The whole character loop of UrlParser._transform on one chunk. -/
def runChars (st : ParserState) : Str → ParserState × List Str
  | [] => (st, [])
  | c :: cs =>
    let r := stepChar st c
    let rest := runChars r.1 cs
    (rest.1, r.2 ++ rest.2)

/-- Feeding a list of chunks one _transform call at a time. -/
def runChunks (st : ParserState) : List Str → ParserState × List Str
  | [] => (st, [])
  | ch :: chs =>
    let r := runChars st ch
    let rest := runChunks r.1 chs
    (rest.1, r.2 ++ rest.2)

/-- UrlParser._flush pushes nothing: an unterminated accumulator is discarded. -/
def flushEmit (_ : ParserState) : List Str := []

/-- A full run of the parser stream over a list of input chunks:
all _transform calls followed by _flush. -/
def processChunks (chunks : List Str) : List Str :=
  let r := runChunks initState chunks
  r.2 ++ flushEmit r.1

theorem runChars_append (st : ParserState) (a b : Str) :
    runChars st (a ++ b) =
      ((runChars (runChars st a).1 b).1,
        (runChars st a).2 ++ (runChars (runChars st a).1 b).2) := by
  induction a generalizing st with
  | nil => simp [runChars]
  | cons c cs ih =>
    show runChars st (c :: (cs ++ b)) = _
    rw [runChars, ih, runChars]
    simp [runChars, List.append_assoc]

theorem runChunks_eq_runChars (st : ParserState) (chunks : List Str) :
    runChunks st chunks = runChars st chunks.flatten := by
  induction chunks generalizing st with
  | nil => simp [runChunks, runChars]
  | cons ch chs ih =>
    simp only [runChunks, List.flatten_cons, runChars_append, ih ((runChars st ch).1)]

/-! ### A declarative characterization of bracket groups

dstep tracks only the depth and escape flag of the transition rules; a
top-level group is a segment whose depth trace starts and ends at zero and
stays positive strictly inside. -/

/-- Depth and escape components of the per-character transition. -/
def dstep : Nat × Bool → Char → Nat × Bool
  | (d, true), _ => (d, false)
  | (d, false), c =>
    if c = '\\' then (d, true)
    else if c = '[' then (d + 1, false)
    else if c = ']' then (if d > 0 then (d - 1, false) else (d, false))
    else (d, false)

/-- Depth and escape trace over a list of characters. -/
def dtrace (p : Nat × Bool) (l : Str) : Nat × Bool := l.foldl dstep p

/-- A properly closed, non-escaped, top-level bracket pair with its contents:
the depth trace from the surrounding top level is positive strictly inside
the segment and returns to zero exactly at its end. -/
def IsGroup (g : Str) : Prop :=
  2 ≤ g.length ∧
  (∀ k, k < g.length → 1 ≤ k → 1 ≤ (dtrace (0, false) (g.take k)).1) ∧
  dtrace (0, false) g = (0, false)

instance (g : Str) : Decidable (IsGroup g) := by
  unfold IsGroup
  infer_instance

theorem stepChar_level_esc (st : ParserState) (c : Char) :
    ((stepChar st c).1.bracketLevel, (stepChar st c).1.isEscaped) =
      dstep (st.bracketLevel, st.isEscaped) c := by
  obtain ⟨d, acc, e⟩ := st
  cases e with
  | true => simp [stepChar, dstep]
  | false =>
    by_cases h1 : c = '\\'
    · simp [stepChar, dstep, h1]
    · by_cases h2 : c = '['
      · subst h2
        by_cases h3 : d + 1 = 1 <;> simp [stepChar, dstep, h1, h3]
      · by_cases h3 : c = ']'
        · subst h3
          by_cases h4 : d > 0
          · by_cases h5 : d - 1 = 0 <;>
              simp [stepChar, dstep, h1, h2, h4, h5]
          · simp [stepChar, dstep, h1, h2, h4]
        · by_cases h0 : 0 < d <;> simp [stepChar, dstep, h1, h2, h3, h0]

theorem runChars_level_esc (l : Str) : ∀ st : ParserState,
    ((runChars st l).1.bracketLevel, (runChars st l).1.isEscaped) =
      dtrace (st.bracketLevel, st.isEscaped) l := by
  induction l with
  | nil => intro st; simp [runChars, dtrace]
  | cons c cs ih =>
    intro st
    simp only [runChars]
    rw [ih ((stepChar st c).1)]
    rw [show dtrace ((stepChar st c).1.bracketLevel, (stepChar st c).1.isEscaped) cs =
          dtrace (dstep (st.bracketLevel, st.isEscaped) c) cs by
        rw [stepChar_level_esc]]
    rfl

theorem stepChar_acc_empty (st : ParserState) (c : Char)
    (h : st.bracketLevel = 0 → st.currentContent = []) :
    (stepChar st c).1.bracketLevel = 0 → (stepChar st c).1.currentContent = [] := by
  obtain ⟨d, acc, e⟩ := st
  cases e with
  | true =>
    simp only [stepChar]
    intro hd0
    subst hd0
    simp [h rfl]
  | false =>
    by_cases h1 : c = '\\'
    · subst h1
      by_cases h0 : 0 < d
      · simp [stepChar, h0]
        intro hx
        exact absurd hx (by omega)
      · simp [stepChar, h0]
        intro hx
        exact h hx
    · by_cases h2 : c = '['
      · subst h2
        by_cases h3 : d + 1 = 1 <;> simp [stepChar, h1, h3]
      · by_cases h3 : c = ']'
        · subst h3
          by_cases h4 : d > 0
          · by_cases h5 : d - 1 = 0
            · simp [stepChar, h1, h2, h4, h5]
            · simp [stepChar, h1, h2, h4, h5]
          · simp [stepChar, h1, h2, h4]
            intro hx; exact h hx
        · by_cases h0 : d > 0
          · simp [stepChar, h1, h2, h3, h0]
            intro hx; exact absurd hx (by omega)
          · simp [stepChar, h1, h2, h3, h0]
            intro hx; exact h hx

theorem runChars_acc_empty (l : Str) : ∀ st : ParserState,
    (st.bracketLevel = 0 → st.currentContent = []) →
    ((runChars st l).1.bracketLevel = 0 → (runChars st l).1.currentContent = []) := by
  induction l with
  | nil => intro st h; simpa [runChars] using h
  | cons c cs ih =>
    intro st h
    simp only [runChars]
    exact ih ((stepChar st c).1) (stepChar_acc_empty st c h)

/-- If the depth trace of a prefix ends at the top level unescaped, the
parser state after that prefix is exactly the initial state. -/
theorem runChars_top (u : Str) (hu : dtrace (0, false) u = (0, false)) :
    (runChars initState u).1 = initState := by
  have h1 := runChars_level_esc u initState
  have h2 := runChars_acc_empty u initState (by simp [initState])
  rw [show ((initState : ParserState).bracketLevel, (initState : ParserState).isEscaped) =
        ((0 : Nat), false) from rfl, hu] at h1
  have hb : (runChars initState u).1.bracketLevel = 0 := by
    have := congrArg Prod.fst h1; simpa using this
  have he : (runChars initState u).1.isEscaped = false := by
    have := congrArg Prod.snd h1; simpa using this
  have hc := h2 hb
  have heta : (runChars initState u).1 =
      ⟨(runChars initState u).1.bracketLevel, (runChars initState u).1.currentContent,
        (runChars initState u).1.isEscaped⟩ := rfl
  rw [heta, hb, he, hc]
  rfl

theorem stepChar_inside (st : ParserState) (c : Char)
    (h1 : 1 ≤ st.bracketLevel)
    (h2 : 1 ≤ (dstep (st.bracketLevel, st.isEscaped) c).1) :
    stepChar st c =
      ({ st with bracketLevel := (dstep (st.bracketLevel, st.isEscaped) c).1,
                 currentContent := st.currentContent ++ [c],
                 isEscaped := (dstep (st.bracketLevel, st.isEscaped) c).2 }, []) := by
  obtain ⟨d, acc, e⟩ := st
  have h0 : 0 < d := h1
  cases e with
  | true => simp [stepChar, dstep, h0]
  | false =>
    by_cases hc1 : c = '\\'
    · subst hc1
      simp [stepChar, dstep, h0]
    · by_cases hc2 : c = '['
      · subst hc2
        have h3 : ¬ (d + 1 = 1) := by omega
        simp [stepChar, dstep, hc1, h3]
      · by_cases hc3 : c = ']'
        · subst hc3
          have hds : dstep (d, false) ']' = (d - 1, false) := by
            simp [dstep, hc1, hc2, h0]
          rw [hds] at h2
          have h2a : 1 ≤ d - 1 := h2
          have h5 : ¬ (d - 1 = 0) := by omega
          simp [stepChar, dstep, hc1, hc2, h0, h5, hds]
        · simp [stepChar, dstep, hc1, hc2, hc3, h0]

/-- Running the parser strictly inside a bracket group appends every
character verbatim to the accumulator and emits nothing. -/
theorem runChars_inside (w : Str) : ∀ st : ParserState,
    1 ≤ st.bracketLevel →
    (∀ k, k ≤ w.length → 1 ≤ (dtrace (st.bracketLevel, st.isEscaped) (w.take k)).1) →
    runChars st w =
      (⟨(dtrace (st.bracketLevel, st.isEscaped) w).1,
        st.currentContent ++ w,
        (dtrace (st.bracketLevel, st.isEscaped) w).2⟩, []) := by
  induction w with
  | nil =>
    intro st h1 h2
    obtain ⟨d, acc, e⟩ := st
    simp [runChars, dtrace]
  | cons c cs ih =>
    intro st h1 h2
    have hc1 : 1 ≤ (dstep (st.bracketLevel, st.isEscaped) c).1 := by
      have := h2 1 (by simp)
      simpa [dtrace] using this
    have hst := stepChar_inside st c h1 hc1
    simp only [runChars, hst]
    rw [ih _ (by simpa using hc1) ?_]
    · simp [dtrace]
    · intro k hk
      have := h2 (k + 1) (by simpa using hk)
      simpa [dtrace, List.take_succ_cons] using this

theorem dstep_open (c : Char) (h : 1 ≤ (dstep (0, false) c).1) :
    c = '[' ∧ dstep (0, false) c = (1, false) := by
  by_cases h1 : c = '\\'
  · simp [dstep, h1] at h
  · by_cases h2 : c = '['
    · simp [dstep, h1, h2]
    · by_cases h3 : c = ']' <;> simp [dstep, h1, h2, h3] at h

theorem dstep_close (d : Nat) (e : Bool) (c : Char)
    (hd : 1 ≤ d) (h : dstep (d, e) c = (0, false)) :
    e = false ∧ c = ']' ∧ d = 1 := by
  cases e with
  | true =>
    simp only [dstep, Prod.mk.injEq] at h
    omega
  | false =>
    by_cases h1 : c = '\\'
    · simp [dstep, h1] at h
    · by_cases h2 : c = '['
      · simp [dstep, h1, h2] at h
      · by_cases h3 : c = ']'
        · have h4 : d > 0 := by omega
          simp only [dstep, if_neg h1, if_neg h2, if_pos h3, if_pos h4,
            Prod.mk.injEq] at h
          exact ⟨rfl, h3, by omega⟩
        · simp [dstep, h1, h2, h3, Prod.mk.injEq] at h
          omega

theorem stepChar_close (acc : Str) :
    stepChar ⟨1, acc, false⟩ ']' = (initState, [acc ++ [']']]) := by
  have h1 : ¬ ((']' : Char) = '\\') := by decide
  have h2 : ¬ ((']' : Char) = '[') := by decide
  simp [stepChar, h1, h2, initState]

/-- Running the parser from the initial state over one complete bracket
group emits exactly that group verbatim and returns to the initial state. -/
theorem runChars_group (g : Str) (hg : IsGroup g) :
    runChars initState g = (initState, [g]) := by
  obtain ⟨hlen, hint, hend⟩ := hg
  rcases g with _ | ⟨c, rest⟩
  · exact absurd hlen (by simp)
  · simp only [List.length_cons] at hlen
    have hc : c = '[' ∧ dstep (0, false) c = (1, false) := by
      apply dstep_open
      have := hint 1 (by simp only [List.length_cons]; omega) le_rfl
      simpa [dtrace] using this
    obtain ⟨rfl, hstep1⟩ := hc
    rcases List.eq_nil_or_concat rest with rfl | ⟨mid, lc, rfl⟩
    · simp at hlen
    · simp only [List.concat_eq_append] at hlen hint hend ⊢
      -- state after the opening bracket
      have hopen : stepChar initState '[' = (⟨1, ['['], false⟩, []) := by
        have h1 : ¬ (('[' : Char) = '\\') := by decide
        simp [stepChar, initState, h1]
      -- interior bounds for mid, shifted by the opening bracket
      have hmidk : ∀ k, k ≤ mid.length → 1 ≤ (dtrace (1, false) (mid.take k)).1 := by
        intro k hk
        have hb : k + 1 < ('[' :: (mid ++ [lc])).length := by
          simp [List.length_append]; omega
        have := hint (k + 1) hb (by omega)
        rw [show ('[' :: (mid ++ [lc])).take (k + 1) = '[' :: (mid ++ [lc]).take k by
              simp [List.take_succ_cons],
            List.take_append_of_le_length hk] at this
        simpa [dtrace, hstep1] using this
      have hmid := runChars_inside mid ⟨1, ['['], false⟩ (by simp) (by simpa using hmidk)
      -- the depth before the closing bracket
      have hdm : 1 ≤ (dtrace (1, false) mid).1 := by
        rcases Nat.eq_zero_or_pos mid.length with hz | hp
        · rw [List.length_eq_zero.mp hz]; simp [dtrace]
        · have := hmidk mid.length le_rfl
          simpa [List.take_length] using this
      -- the final character closes the group
      have hlast : dstep ((dtrace (1, false) mid).1, (dtrace (1, false) mid).2) lc
          = (0, false) := by
        have hh : dtrace (0, false) ('[' :: (mid ++ [lc])) = (0, false) := hend
        rw [show dtrace (0, false) ('[' :: (mid ++ [lc])) =
              dtrace (dstep (0, false) '[') (mid ++ [lc]) from rfl, hstep1] at hh
        rw [Prod.mk.eta]
        simpa [dtrace, List.foldl_append] using hh
      obtain ⟨hesc, rfl, hone⟩ :=
        dstep_close (dtrace (1, false) mid).1 (dtrace (1, false) mid).2 lc hdm hlast
      -- assemble the run
      rw [show runChars initState ('[' :: (mid ++ [']'])) =
            ((runChars ⟨1, ['['], false⟩ (mid ++ [']'])).1,
              [] ++ (runChars ⟨1, ['['], false⟩ (mid ++ [']'])).2) by
          simp only [runChars, hopen]]
      rw [runChars_append, hmid]
      have hst2 : (⟨(dtrace (1, false) mid).1, ['['] ++ mid,
          (dtrace (1, false) mid).2⟩ : ParserState) = ⟨1, ['['] ++ mid, false⟩ := by
        rw [hone, hesc]
      rw [hst2]
      have hcl : runChars ⟨1, ['['] ++ mid, false⟩ [']'] =
          (initState, [(['['] ++ mid) ++ [']']]) := by
        simp only [runChars, stepChar_close, List.append_nil, List.nil_append]
      rw [hcl]
      simp [List.append_assoc]

/-- C2: for every input string and every partition of it into an ordered
sequence of chunks, feeding the chunks to the tokenizer one at a time
produces exactly the same sequence of BracketGroups as feeding the whole
input in a single chunk. -/
theorem c2_chunk_splitting (chunks : List Str) :
    processChunks chunks = processChunks [chunks.flatten] := by
  simp [processChunks, runChunks_eq_runChars, runChunks]

/-- Processing an unterminated opening segment (depth stays positive up to
end of input) contributes no output. -/
theorem runChars_unterminated (w : Str)
    (hw : ∀ k, k ≤ w.length → 1 ≤ k → 1 ≤ (dtrace (0, false) (w.take k)).1) :
    (runChars initState w).2 = [] := by
  rcases w with _ | ⟨c, cs⟩
  · simp [runChars]
  · have hc : c = '[' ∧ dstep (0, false) c = (1, false) := by
      apply dstep_open
      have := hw 1 (by simp) le_rfl
      simpa [dtrace] using this
    obtain ⟨rfl, hstep1⟩ := hc
    have hopen : stepChar initState '[' = (⟨1, ['['], false⟩, []) := by
      have h1 : ¬ (('[' : Char) = '\\') := by decide
      simp [stepChar, initState, h1]
    have hcsk : ∀ k, k ≤ cs.length → 1 ≤ (dtrace (1, false) (cs.take k)).1 := by
      intro k hk
      have := hw (k + 1) (by simpa using hk) (by omega)
      rw [show ('[' :: cs).take (k + 1) = '[' :: cs.take k by
            simp [List.take_succ_cons]] at this
      simpa [dtrace, hstep1] using this
    have hcs := runChars_inside cs ⟨1, ['['], false⟩ (by simp) (by simpa using hcsk)
    simp [runChars, hopen, hcs]

/-- C3: every top-level, properly closed, non-escaped bracket pair is
emitted as exactly one BracketGroup equal to the full matched substring
with brackets and escape markers verbatim; an escaped bracket never
changes the depth; an unmatched closing bracket at depth zero is ignored;
and an unterminated top-level bracket produces no output at end of input. -/
theorem c3_group_extraction :
    (∀ u g v : Str, dtrace (0, false) u = (0, false) → IsGroup g →
      processChunks [u ++ g ++ v] =
        (runChars initState u).2 ++ g :: (runChars initState v).2) ∧
    (∀ (st : ParserState) (c : Char), st.isEscaped = true →
      (stepChar st c).1.bracketLevel = st.bracketLevel) ∧
    (∀ st : ParserState, st.bracketLevel = 0 → st.isEscaped = false →
      stepChar st ']' = (st, [])) ∧
    (∀ u w : Str, dtrace (0, false) u = (0, false) →
      (∀ k, k ≤ w.length → 1 ≤ k → 1 ≤ (dtrace (0, false) (w.take k)).1) →
      processChunks [u ++ w] = (runChars initState u).2) := by
  refine ⟨?_, ?_, ?_, ?_⟩
  · intro u g v hu hg
    simp only [processChunks, runChunks, runChars_append, flushEmit,
      runChars_top u hu, runChars_group g hg]
    simp
  · intro st c h
    obtain ⟨d, acc, e⟩ := st
    simp only at h
    subst h
    simp [stepChar]
  · intro st h1 h2
    obtain ⟨d, acc, e⟩ := st
    simp only at h1 h2
    subst h1
    subst h2
    have hx1 : ¬ ((']' : Char) = '\\') := by decide
    have hx2 : ¬ ((']' : Char) = '[') := by decide
    simp [stepChar, hx1, hx2]
  · intro u w hu hw
    simp only [processChunks, runChunks, runChars_append, flushEmit,
      runChars_top u hu, runChars_unterminated w hw]
    simp

/-- Witness: the first part of the group-extraction theorem at a concrete
input with nesting, an escape, a stray closing bracket and an unterminated
bracket in the surrounding context. -/
theorem c3_group_extraction_witness :
    processChunks ["ab]".data ++ "[x[y]\\]z]".data ++ "cd[q".data] =
      (runChars initState "ab]".data).2 ++
        "[x[y]\\]z]".data :: (runChars initState "cd[q".data).2 :=
  c3_group_extraction.1 "ab]".data "[x[y]\\]z]".data "cd[q".data
    (by decide) (by decide)

/-! ## UrlProcessor: URL extraction (src/lib/UrlProcessor.ts, _transform)

LAST_URL_REGEX is
(?:https?:\/\/)?(?:localhost(?::\d+)?|(?:[a-zA-Z0-9-]+\.)+[a-zA-Z]{2,})(?:\/[^\s]*)?
with the global flag; matchAll scans left to right without overlap.  The
matcher below implements the backtracking semantics of this pattern:
the optional scheme is preferred present, the localhost alternative is
tried before the dotted hostname, the label repetition is greedy with
backtracking over the repetition count, and quantifiers are greedy. -/

def isHostChar (c : Char) : Bool := c.isAlpha || c.isDigit || c = '-'

def isLetterChar (c : Char) : Bool := c.isAlpha

def isDigitChar (c : Char) : Bool := c.isDigit

/-- The JavaScript whitespace class for the character set of the path part. -/
def isSpaceChar (c : Char) : Bool :=
  c = ' ' || c = '\t' || c = '\n' || c = '\r' || c = '\x0b' || c = '\x0c'

/-- Match a literal string at the head of the input; return the remainder. -/
def stripExact : Str → Str → Option Str
  | [], l => some l
  | _ :: _, [] => none
  | p :: ps, c :: cs => if c = p then stripExact ps cs else none

/-- The optional scheme (?:https?:\/\/)? with a greedy s?. -/
def matchScheme (l : Str) : Option (Str × Str) :=
  match stripExact "http".data l with
  | none => none
  | some r1 =>
    match r1 with
    | 's' :: r2 =>
      (match stripExact "://".data r2 with
       | some r3 => some ("https://".data, r3)
       | none =>
        match stripExact "://".data r1 with
        | some r3 => some ("http://".data, r3)
        | none => none)
    | _ =>
      match stripExact "://".data r1 with
      | some r3 => some ("http://".data, r3)
      | none => none

/-- One hostname label [a-zA-Z0-9-]+ followed by a literal dot.  The label
run is forced maximal because the dot is not a label character. -/
def labelSplit (l : Str) : Option (Str × Str) :=
  let run := l.takeWhile isHostChar
  if run = [] then none
  else
    match l.drop run.length with
    | '.' :: rest => some (run ++ ['.'], rest)
    | _ => none

/-- All greedy prefixes of (?:[a-zA-Z0-9-]+\.)+ : consumed text and rest,
in increasing repetition count. -/
def collectLabelsF : Nat → Str → List (Str × Str)
  | 0, _ => []
  | fuel + 1, l =>
    match labelSplit l with
    | none => []
    | some (lab, rest) =>
      (lab, rest) :: (collectLabelsF fuel rest).map (fun p => (lab ++ p.1, p.2))

def collectLabels (l : Str) : List (Str × Str) := collectLabelsF l.length l

/-- First successful candidate, or none. -/
def firstSome {α β : Type} (f : α → Option β) : List α → Option β
  | [] => none
  | a :: rest =>
    match f a with
    | some b => some b
    | none => firstSome f rest

/-- The dotted hostname (?:[a-zA-Z0-9-]+\.)+[a-zA-Z]{2,} : greedy label
repetition, backtracking from the most repetitions down, then a greedy
run of at least two letters. -/
def tryDotted (l : Str) : Option (Str × Str) :=
  firstSome
    (fun p =>
      let letters := p.2.takeWhile isLetterChar
      if 2 ≤ letters.length then
        some (p.1 ++ letters, p.2.drop letters.length)
      else none)
    (collectLabels l).reverse

/-- The localhost(?::\d+)? alternative: the optional port group matches
only when at least one digit follows the colon. -/
def tryLocalhost (l : Str) : Option (Str × Str) :=
  match stripExact "localhost".data l with
  | none => none
  | some rest =>
    match rest with
    | ':' :: r2 =>
      let ds := r2.takeWhile isDigitChar
      if ds = [] then some ("localhost".data, rest)
      else some ("localhost".data ++ ':' :: ds, r2.drop ds.length)
    | _ => some ("localhost".data, rest)

/-- The host alternation: localhost is tried first. -/
def tryHost (l : Str) : Option (Str × Str) :=
  match tryLocalhost l with
  | some r => some r
  | none => tryDotted l

/-- The optional greedy path (?:\/[^\s]*)?. -/
def tryPath (l : Str) : Str × Str :=
  match l with
  | '/' :: r =>
    let run := r.takeWhile (fun c => !isSpaceChar c)
    ('/' :: run, r.drop run.length)
  | _ => ([], l)

/-- A whole-pattern match attempt at the current position: scheme first;
if the host fails after a matched scheme, backtrack to no scheme. -/
def tryUrlAt (l : Str) : Option (Str × Str) :=
  match matchScheme l with
  | some (sch, r1) =>
    (match tryHost r1 with
     | some (h, r2) =>
       let p := tryPath r2
       some (sch ++ h ++ p.1, p.2)
     | none =>
       match tryHost l with
       | some (h, r2) =>
         let p := tryPath r2
         some (h ++ p.1, p.2)
       | none => none)
  | none =>
    match tryHost l with
    | some (h, r2) =>
      let p := tryPath r2
      some (h ++ p.1, p.2)
    | none => none

/-- content.matchAll(LAST_URL_REGEX): leftmost matches without overlap. -/
def urlMatchesF : Nat → Str → List Str
  | 0, _ => []
  | _ + 1, [] => []
  | fuel + 1, c :: cs =>
    match tryUrlAt (c :: cs) with
    | some (m, rest) => m :: urlMatchesF fuel rest
    | none => urlMatchesF fuel cs

def urlMatches (l : Str) : List Str := urlMatchesF l.length l

/-- Strip exactly one leading bracket and one trailing bracket when both
are present (content.startsWith and content.endsWith checks). -/
def stripBrackets (content : Str) : Str :=
  match content with
  | '[' :: rest => if rest.getLast? = some ']' then rest.dropLast else content
  | _ => content

/-- Prepend the secure scheme when the token has no scheme. -/
def canonicalize (u : Str) : Str :=
  if "http://".data.isPrefixOf u || "https://".data.isPrefixOf u then u
  else "https://".data ++ u

/-- The pure part of UrlProcessor._transform: strip brackets, find all
URL-shaped tokens, take the last one, qualify its scheme. -/
def extractUrl (chunk : Str) : Option Str :=
  match (urlMatches (stripBrackets chunk)).getLast? with
  | none => none
  | some m => some (canonicalize m)

theorem isPrefixOf_append_self (p t : Str) : p.isPrefixOf (p ++ t) = true := by
  simp [List.isPrefixOf_iff_prefix]

/-- C4: after stripping one pair of enclosing brackets, zero URL-shaped
tokens yield no task; with one or more tokens the last match wins and a
missing scheme is completed to the secure scheme; the canonical URL is
always scheme-qualified. -/
theorem c4_last_url_wins :
    (∀ chunk : Str, urlMatches (stripBrackets chunk) = [] → extractUrl chunk = none) ∧
    (∀ (chunk : Str) (ms : List Str) (m : Str),
      urlMatches (stripBrackets chunk) = ms ++ [m] →
      extractUrl chunk = some (canonicalize m)) ∧
    (∀ m : Str, ("http://".data.isPrefixOf m || "https://".data.isPrefixOf m) = false →
      canonicalize m = "https://".data ++ m) ∧
    (∀ l : Str, stripBrackets ('[' :: (l ++ [']'])) = l) ∧
    (∀ (chunk u : Str), extractUrl chunk = some u →
      ("http://".data.isPrefixOf u || "https://".data.isPrefixOf u) = true) := by
  refine ⟨?_, ?_, ?_, ?_, ?_⟩
  · intro chunk h
    simp [extractUrl, h]
  · intro chunk ms m h
    simp [extractUrl, h]
  · intro m h
    simp only [canonicalize]
    rw [if_neg]
    simp only [h, Bool.false_eq_true, not_false_eq_true]
  · intro l
    simp [stripBrackets]
  · intro chunk u h
    simp only [extractUrl] at h
    rcases hm : (urlMatches (stripBrackets chunk)).getLast? with _ | m
    · rw [hm] at h; exact absurd h (by simp)
    · rw [hm] at h
      simp only [Option.some.injEq] at h
      subst h
      by_cases hc : ("http://".data.isPrefixOf m || "https://".data.isPrefixOf m) = true
      · simp [canonicalize, hc]
      · have hneg : ¬ ("http://".data.isPrefixOf m ||
            "https://".data.isPrefixOf m) = true := hc
        simp only [canonicalize, if_neg hneg]
        have := isPrefixOf_append_self "https://".data m
        simp [this]

/-- Witness: the repository test scenario with two URL tokens in one
bracket group; the last one is selected and scheme-qualified. -/
theorem c4_last_url_wins_witness :
    extractUrl "[www.a.com www.b.com]".data =
      some (canonicalize "www.b.com".data) :=
  c4_last_url_wins.2.1 "[www.a.com www.b.com]".data ["www.a.com".data]
    "www.b.com".data (by decide)

/-! ## ResultBuilder: title, email and hashing (processUrl and hashEmail)

crypto.createHash("sha256").update(email + secret).digest("hex") is
embedded as a complete SHA-256 over the UTF-8 bytes of the concatenation,
with a lowercase hexadecimal rendering. -/

/-- Reduce to a 32 bit word. -/
def m32 (x : Nat) : Nat := x % 4294967296

/-- 32 bit right rotation. -/
def rotr (x n : Nat) : Nat := m32 ((x >>> n) ||| (x <<< (32 - n)))

def bigSigma0 (x : Nat) : Nat := rotr x 2 ^^^ rotr x 13 ^^^ rotr x 22

def bigSigma1 (x : Nat) : Nat := rotr x 6 ^^^ rotr x 11 ^^^ rotr x 25

def smallSigma0 (x : Nat) : Nat := rotr x 7 ^^^ rotr x 18 ^^^ (x >>> 3)

def smallSigma1 (x : Nat) : Nat := rotr x 17 ^^^ rotr x 19 ^^^ (x >>> 10)

def chF (x y z : Nat) : Nat := (x &&& y) ^^^ ((x ^^^ 4294967295) &&& z)

def majF (x y z : Nat) : Nat := (x &&& y) ^^^ (x &&& z) ^^^ (y &&& z)

/-- The SHA-256 round constants. -/
def K256 : List Nat :=
  [1116352408, 1899447441, 3049323471, 3921009573,
   961987163, 1508970993, 2453635748, 2870763221,
   3624381080, 310598401, 607225278, 1426881987,
   1925078388, 2162078206, 2614888103, 3248222580,
   3835390401, 4022224774, 264347078, 604807628,
   770255983, 1249150122, 1555081692, 1996064986,
   2554220882, 2821834349, 2952996808, 3210313671,
   3336571891, 3584528711, 113926993, 338241895,
   666307205, 773529912, 1294757372, 1396182291,
   1695183700, 1986661051, 2177026350, 2456956037,
   2730485921, 2820302411, 3259730800, 3345764771,
   3516065817, 3600352804, 4094571909, 275423344,
   430227734, 506948616, 659060556, 883997877,
   958139571, 1322822218, 1537002063, 1747873779,
   1955562222, 2024104815, 2227730452, 2361852424,
   2428436474, 2756734187, 3204031479, 3329325298]

/-- The eight working words of the SHA-256 state. -/
structure Hash8 where
  a : Nat
  b : Nat
  c : Nat
  d : Nat
  e : Nat
  f : Nat
  g : Nat
  h : Nat
deriving DecidableEq

def sha256Init : Hash8 :=
  ⟨1779033703, 3144134277, 1013904242, 2773480762,
   1359893119, 2600822924, 528734635, 1541459225⟩

def sha256Round (st : Hash8) (k : Nat) (w : Nat) : Hash8 :=
  let t1 := m32 (st.h + bigSigma1 st.e + chF st.e st.f st.g + k + w)
  let t2 := m32 (bigSigma0 st.a + majF st.a st.b st.c)
  ⟨m32 (t1 + t2), st.a, st.b, st.c, m32 (st.d + t1), st.e, st.f, st.g⟩

/-- Four big-endian bytes to one word, over the whole block. -/
def bytesToWords : List Nat → List Nat
  | b0 :: b1 :: b2 :: b3 :: rest =>
    (((b0 * 256 + b1) * 256 + b2) * 256 + b3) :: bytesToWords rest
  | _ => []

/-- One message-schedule extension step appends word i from words
i - 2, i - 7, i - 15 and i - 16. -/
def scheduleStep (w : List Nat) : List Nat :=
  let n := w.length
  w ++ [m32 (smallSigma1 (w.getD (n - 2) 0) + w.getD (n - 7) 0 +
             smallSigma0 (w.getD (n - 15) 0) + w.getD (n - 16) 0)]

def schedule (w : List Nat) : List Nat := scheduleStep^[48] w

def compressBlock (st : Hash8) (block : List Nat) : Hash8 :=
  let w := schedule (bytesToWords block)
  let r := (K256.zip w).foldl (fun acc kw => sha256Round acc kw.1 kw.2) st
  ⟨m32 (st.a + r.a), m32 (st.b + r.b), m32 (st.c + r.c), m32 (st.d + r.d),
   m32 (st.e + r.e), m32 (st.f + r.f), m32 (st.g + r.g), m32 (st.h + r.h)⟩

/-- The bit length of the message as eight big-endian bytes. -/
def lengthBytes (n : Nat) : List Nat :=
  [n >>> 56 % 256, n >>> 48 % 256, n >>> 40 % 256, n >>> 32 % 256,
   n >>> 24 % 256, n >>> 16 % 256, n >>> 8 % 256, n % 256]

/-- SHA-256 padding: 0x80, zeros to 56 mod 64, then the 64 bit length. -/
def padMessage (m : List Nat) : List Nat :=
  m ++ 0x80 :: List.replicate ((119 - m.length % 64) % 64) 0 ++
    lengthBytes (m.length * 8)

def toBlocksF : Nat → List Nat → List (List Nat)
  | 0, _ => []
  | _, [] => []
  | fuel + 1, l => l.take 64 :: toBlocksF fuel (l.drop 64)

def toBlocks (l : List Nat) : List (List Nat) := toBlocksF l.length l

def sha256State (msg : List Nat) : Hash8 :=
  (toBlocks (padMessage msg)).foldl compressBlock sha256Init

def hexDigit (n : Nat) : Char :=
  if n < 10 then Char.ofNat (48 + n) else Char.ofNat (87 + n)

/-- One 32 bit word as eight lowercase hexadecimal digits. -/
def wordHex (w : Nat) : Str :=
  [hexDigit (w >>> 28 % 16), hexDigit (w >>> 24 % 16), hexDigit (w >>> 20 % 16),
   hexDigit (w >>> 16 % 16), hexDigit (w >>> 12 % 16), hexDigit (w >>> 8 % 16),
   hexDigit (w >>> 4 % 16), hexDigit (w % 16)]

def sha256Hex (msg : List Nat) : Str :=
  let s := sha256State msg
  wordHex s.a ++ wordHex s.b ++ wordHex s.c ++ wordHex s.d ++
  wordHex s.e ++ wordHex s.f ++ wordHex s.g ++ wordHex s.h

/-- UTF-8 encoding of one scalar value. -/
def encodeChar (c : Char) : List Nat :=
  let n := c.toNat
  if n < 128 then [n]
  else if n < 2048 then [192 + n / 64, 128 + n % 64]
  else if n < 65536 then [224 + n / 4096, 128 + n / 64 % 64, 128 + n % 64]
  else [240 + n / 262144, 128 + n / 4096 % 64, 128 + n / 64 % 64, 128 + n % 64]

def utf8Bytes (s : Str) : List Nat := (s.map encodeChar).flatten

/-- UrlProcessor.hashEmail: sha256 of email + secret, hex digest. -/
def hashEmail (secret email : Str) : Str := sha256Hex (utf8Bytes (email ++ secret))

/-- JavaScript String.prototype.trim on both ends. -/
def trimStr (l : Str) : Str :=
  ((l.dropWhile isSpaceChar).reverse.dropWhile isSpaceChar).reverse

/-- Split the input at the first occurrence of a literal pattern:
the part before and the part after the pattern. -/
def splitFirstF : Nat → Str → Str → Option (Str × Str)
  | 0, _, _ => none
  | fuel + 1, pat, l =>
    if pat.isPrefixOf l then some ([], l.drop pat.length)
    else
      match l with
      | [] => none
      | c :: cs => (splitFirstF fuel pat cs).map (fun r => (c :: r.1, r.2))

def splitFirst (pat l : Str) : Option (Str × Str) := splitFirstF (l.length + 1) pat l

/-- Modelled from the spec: the repository delegates title lookup to the
external node-html-parser package (root.querySelector of the title tag and
its textContent), which is not part of this repository; per the spec it
locates the first title element of the body and returns its text content. -/
def firstTitleContent (body : Str) : Option Str :=
  match splitFirst "<title>".data body with
  | none => none
  | some (_, rest) =>
    match splitFirst "</title>".data rest with
    | none => none
    | some (content, _) => some content

/-! EMAIL_REGEX is [a-zA-Z0-9._%+-]+@[a-zA-Z0-9.-]+\.[a-zA-Z]{2,} without
flags; String.prototype.match returns the first match.  The local-part run
is forced maximal; the domain run backtracks from the longest prefix of
the maximal domain-character run to the last dot followed by at least two
letters. -/

def isLocalChar (c : Char) : Bool :=
  c.isAlpha || c.isDigit || c = '.' || c = '_' || c = '%' || c = '+' || c = '-'

def isDomChar (c : Char) : Bool := c.isAlpha || c.isDigit || c = '.' || c = '-'

/-- Backtracking for [a-zA-Z0-9.-]+\.[a-zA-Z]{2,}: candidate prefix
lengths of the maximal domain run, from long to short. -/
def tryDomAux (run : Str) : Nat → Option Str
  | 0 => none
  | k + 1 =>
    let letters := (run.drop (k + 2)).takeWhile isLetterChar
    if run.getD (k + 1) ' ' = '.' ∧ 2 ≤ letters.length then
      some (run.take (k + 1) ++ '.' :: letters)
    else tryDomAux run k

/-- One match attempt of EMAIL_REGEX anchored at the head. -/
def emailAt (l : Str) : Option Str :=
  let loc := l.takeWhile isLocalChar
  if loc = [] then none
  else
    match l.drop loc.length with
    | '@' :: rest =>
      let run := rest.takeWhile isDomChar
      (match tryDomAux run (run.length - 1) with
       | some dom => some (loc ++ '@' :: dom)
       | none => none)
    | _ => none

def firstEmailF : Nat → Str → Option Str
  | 0, _ => none
  | _ + 1, [] => none
  | fuel + 1, c :: cs =>
    match emailAt (c :: cs) with
    | some m => some m
    | none => firstEmailF fuel cs

/-- body.match(EMAIL_REGEX): the first email-shaped substring. -/
def firstEmail (l : Str) : Option Str := firstEmailF l.length l

/-- The JSON record shape of types.ts: url always present, title and email
optional (the spec names the email field emailHash). -/
structure OutputData where
  url : Str
  title : Option Str
  email : Option Str
deriving DecidableEq

/-- The success path of UrlProcessor.processUrl: title from the first
title element if nonempty after trimming, email hash from the first
email-shaped substring of the raw body. -/
def buildOutput (secret url body : Str) : OutputData :=
  let t :=
    match firstTitleContent body with
    | some titleText => if trimStr titleText = [] then none else some (trimStr titleText)
    | none => none
  let e :=
    match firstEmail body with
    | some mail => some (hashEmail secret mail)
    | none => none
  ⟨url, t, e⟩

/-- A lowercase hexadecimal digit. -/
def isHexChar (c : Char) : Bool := c.isDigit || ('a' ≤ c && c ≤ 'f')

theorem hexDigit_isHex (n : Nat) (h : n < 16) : isHexChar (hexDigit n) = true := by
  interval_cases n <;> decide

theorem wordHex_isHex (w : Nat) : ∀ c ∈ wordHex w, isHexChar c = true := by
  intro c hc
  simp only [wordHex, List.mem_cons, List.not_mem_nil, or_false] at hc
  rcases hc with h | h | h | h | h | h | h | h <;> subst h <;>
    exact hexDigit_isHex _ (Nat.mod_lt _ (by norm_num))

theorem sha256Hex_length (msg : List Nat) : (sha256Hex msg).length = 64 := by
  simp [sha256Hex, wordHex]

theorem sha256Hex_isHex (msg : List Nat) :
    ∀ c ∈ sha256Hex msg, isHexChar c = true := by
  intro c hc
  simp only [sha256Hex, List.mem_append] at hc
  rcases hc with ((((((h | h) | h) | h) | h) | h) | h) | h <;>
    exact wordHex_isHex _ c h

/-- C8: the title field is the trimmed text content of the first title
element and is present exactly when that trimmed text is nonempty; the
email field is present exactly when the raw body has an email-shaped
substring, and then carries the 64 character lowercase hexadecimal
SHA-256 digest of the email concatenated with the secret. -/
theorem c8_title_and_email_hash :
    (∀ secret url body t : Str, firstTitleContent body = some t →
      trimStr t ≠ [] → (buildOutput secret url body).title = some (trimStr t)) ∧
    (∀ secret url body t : Str, firstTitleContent body = some t →
      trimStr t = [] → (buildOutput secret url body).title = none) ∧
    (∀ secret url body : Str, firstTitleContent body = none →
      (buildOutput secret url body).title = none) ∧
    (∀ secret url body x : Str, (buildOutput secret url body).title = some x →
      x ≠ []) ∧
    (∀ secret url body m : Str, firstEmail body = some m →
      (buildOutput secret url body).email =
        some (sha256Hex (utf8Bytes (m ++ secret)))) ∧
    (∀ secret url body : Str, firstEmail body = none →
      (buildOutput secret url body).email = none) ∧
    (∀ secret url body h : Str, (buildOutput secret url body).email = some h →
      h.length = 64 ∧ ∀ c ∈ h, isHexChar c = true) := by
  refine ⟨?_, ?_, ?_, ?_, ?_, ?_, ?_⟩
  · intro secret url body t ht hne
    simp [buildOutput, ht, hne]
  · intro secret url body t ht he
    simp [buildOutput, ht, he]
  · intro secret url body ht
    simp [buildOutput, ht]
  · intro secret url body x hx
    simp only [buildOutput] at hx
    rcases ht : firstTitleContent body with _ | t
    · rw [ht] at hx; simp at hx
    · rw [ht] at hx
      by_cases he : trimStr t = []
      · simp [he] at hx
      · simp only [if_neg he, Option.some.injEq] at hx
        subst hx
        exact he
  · intro secret url body m hm
    simp [buildOutput, hm, hashEmail]
  · intro secret url body hm
    simp [buildOutput, hm]
  · intro secret url body h hh
    simp only [buildOutput] at hh
    rcases hm : firstEmail body with _ | m
    · rw [hm] at hh; simp at hh
    · rw [hm] at hh
      simp only [Option.some.injEq] at hh
      subst hh
      exact ⟨sha256Hex_length _, sha256Hex_isHex _⟩

/-- Witness: the integration scenario body with a title and an email. -/
theorem c8_title_and_email_hash_witness :
    (buildOutput "test-secret".data "https://www.google.com".data
        "<html><head><title> Test Title </title></head><body>contact test@example.com now</body></html>".data).title
      = some (trimStr " Test Title ".data) ∧
    (buildOutput "test-secret".data "https://www.google.com".data
        "<html><head><title> Test Title </title></head><body>contact test@example.com now</body></html>".data).email
      = some (sha256Hex (utf8Bytes ("test@example.com".data ++ "test-secret".data))) :=
  ⟨c8_title_and_email_hash.1 "test-secret".data "https://www.google.com".data
      _ " Test Title ".data (by decide) (by decide),
   c8_title_and_email_hash.2.2.2.2.1 "test-secret".data "https://www.google.com".data
      _ "test@example.com".data (by decide)⟩

/-! ## FetchEngine (UrlProcessor.fetch)

The network is an oracle from URL to outcome: either an HTTP response with
a status and body, or a thrown connection-level error with a name and a
message.  A non-2xx response is turned into a thrown Error whose message
carries the decimal status code; the catch block decides the one-shot
secure-to-insecure fallback. -/

/-- Decimal digits of a number, as produced by JavaScript string
interpolation of a number. -/
def natDecimal (n : Nat) : Str :=
  if n < 10 then [Char.ofNat (48 + n)]
  else natDecimal (n / 10) ++ [Char.ofNat (48 + n % 10)]
termination_by n
decreasing_by
  exact Nat.div_lt_self (by omega) (by norm_num)

theorem digitChar_isDigit (k : Nat) (h : k < 10) :
    (Char.ofNat (48 + k)).isDigit = true := by
  interval_cases k <;> decide

theorem natDecimal_digits (n : Nat) : ∀ c ∈ natDecimal n, c.isDigit = true := by
  induction n using Nat.strong_induction_on with
  | _ n ih =>
    rw [natDecimal]
    split_ifs with h
    · intro c hc
      simp only [List.mem_singleton] at hc
      subst hc
      exact digitChar_isDigit n h
    · intro c hc
      rw [List.mem_append] at hc
      rcases hc with hc | hc
      · exact ih (n / 10) (Nat.div_lt_self (by omega) (by norm_num)) c hc
      · simp only [List.mem_singleton] at hc
        subst hc
        exact digitChar_isDigit _ (Nat.mod_lt _ (by norm_num))

/-- JavaScript String.prototype.includes: substring containment. -/
def containsSub (pat hay : Str) : Bool := decide (pat <:+: hay)

/-- A pattern with no digit characters that is not an infix of a list
stays a non-infix after appending only digit characters. -/
theorem containsSub_append_digits (A D pat : Str)
    (hD : ∀ c ∈ D, c.isDigit = true)
    (hpat : ∀ c ∈ pat, c.isDigit = false)
    (hne : pat ≠ [])
    (hA : containsSub pat A = false) :
    containsSub pat (A ++ D) = false := by
  by_contra hcon
  rw [Bool.not_eq_false, containsSub, decide_eq_true_eq] at hcon
  obtain ⟨s, t, hst⟩ := hcon
  rw [List.append_assoc] at hst
  by_cases hsplit : s.length + pat.length ≤ A.length
  · -- the occurrence lies inside A
    apply absurd hA
    rw [Bool.not_eq_false, containsSub, decide_eq_true_eq]
    refine ⟨s, A.drop (s.length + pat.length), ?_⟩
    have h1 : ((s ++ pat) ++ t).take (s.length + pat.length) = s ++ pat := by
      rw [List.take_append_eq_append_take]
      simp [List.length_append]
    have h2 : (s ++ pat) ++ t = A ++ D := by
      rw [List.append_assoc]
      exact hst
    have hpre : s ++ pat = A.take (s.length + pat.length) := by
      rw [← h1, h2, List.take_append_eq_append_take]
      have h0 : s.length + pat.length - A.length = 0 := by omega
      rw [h0]
      simp
    rw [hpre, List.take_append_drop]
  · -- the occurrence overlaps the digit suffix
    push_neg at hsplit
    set i := max s.length A.length with hi
    have his : s.length ≤ i := le_max_left _ _
    have hiA : A.length ≤ i := le_max_right _ _
    have hip : i - s.length < pat.length := by
      have h1 : 0 < pat.length := List.length_pos.mpr hne
      omega
    have hlen : s.length + (pat.length + t.length) = A.length + D.length := by
      have hl := congrArg List.length hst
      simpa [List.length_append] using hl
    have hiD : i - A.length < D.length := by omega
    have hleft : (s ++ (pat ++ t))[i]? = pat[i - s.length]? := by
      rw [List.getElem?_append_right his, List.getElem?_append_left hip]
    have hright : (A ++ D)[i]? = D[i - A.length]? := by
      rw [List.getElem?_append_right hiA]
    have heq : pat[i - s.length]? = D[i - A.length]? := by
      rw [← hleft, ← hright, hst]
    have hpmem : pat[i - s.length] ∈ pat := List.getElem_mem hip
    have hdsome : D[i - A.length]? = some pat[i - s.length] := by
      rw [← heq, List.getElem?_eq_getElem hip]
    have hdmem : pat[i - s.length] ∈ D := by
      obtain ⟨hlt, hval⟩ := List.getElem?_eq_some_iff.mp hdsome
      rw [← hval]
      exact List.getElem_mem hlt
    have h1 := hD _ hdmem
    have h2 := hpat _ hpmem
    rw [h1] at h2
    exact absurd h2 (by simp)

structure JsError where
  name : Str
  message : Str
deriving DecidableEq

inductive FetchOutcome where
  | resp (status : Nat) (body : Str)
  | err (e : JsError)
deriving DecidableEq

/-- The network oracle: what one GET of a URL produces. -/
def Network : Type := Str → FetchOutcome

/-- The message of the Error thrown for a non-2xx response. -/
def statusErrorMessage (status : Nat) : Str :=
  "Request Failed. Status Code: ".data ++ natDecimal status

/-- One GET inside the try block: response.ok is status 200 to 299; a
non-ok response throws an Error carrying the status code; a connection
failure throws its own error. -/
def fetchAttempt (net : Network) (url : Str) : Except JsError Str :=
  match net url with
  | .resp st body =>
    if 200 ≤ st ∧ st < 300 then .ok body
    else .error ⟨"Error".data, statusErrorMessage st⟩
  | .err e => .error e

/-- The catch condition for the protocol fallback: the message mentions
certificate or cert, or the error is a TypeError. -/
def looksCertError (e : JsError) : Bool :=
  containsSub "certificate".data e.message || containsSub "cert".data e.message ||
    e.name == "TypeError".data

/-- JavaScript String.prototype.replace with a string pattern: replace the
first occurrence only. -/
def replaceFirstF : Nat → Str → Str → Str → Str
  | 0, _, _, l => l
  | fuel + 1, pat, repl, l =>
    if pat.isPrefixOf l then repl ++ l.drop pat.length
    else
      match l with
      | [] => []
      | c :: cs => c :: replaceFirstF fuel pat repl cs

def replaceFirst (pat repl l : Str) : Str := replaceFirstF (l.length + 1) pat repl l

def downgradeUrl (u : Str) : Str := replaceFirst "https://".data "http://".data u

/-- UrlProcessor.fetch: one attempt, and on failure the secure-to-insecure
fallback re-issues the request once when this is not a retry attempt, the
URL is secure and the error looks like a certificate problem; the inner
attempt is marked as a retry so it can never fall back again. -/
def fetchModel (net : Network) (url : Str) (isRetry : Bool) : Except JsError Str :=
  match fetchAttempt net url with
  | .ok body => .ok body
  | .error e =>
    if h : (!isRetry && "https://".data.isPrefixOf url && looksCertError e) = true then
      fetchModel net (downgradeUrl url) true
    else .error e
termination_by (if isRetry then 0 else 1)
decreasing_by
  simp only [Bool.and_eq_true, Bool.not_eq_eq_eq_not, Bool.not_true] at h
  simp [h.1.1]

theorem fetchModel_retry (net : Network) (url : Str) :
    fetchModel net url true = fetchAttempt net url := by
  unfold fetchModel
  rcases fetchAttempt net url with body | e <;> simp

theorem fetchModel_first (net : Network) (url : Str) (e : JsError)
    (h : fetchAttempt net url = .error e) :
    fetchModel net url false =
      (if ("https://".data.isPrefixOf url && looksCertError e) = true
       then fetchAttempt net (downgradeUrl url)
       else .error e) := by
  unfold fetchModel
  rw [h]
  simp only [Bool.not_false, Bool.true_and]
  split_ifs with hc
  · exact fetchModel_retry net (downgradeUrl url)
  · rfl

/-- C6: a non-2xx response is a failure carrying the decimal status code;
the downgraded attempt is marked and never falls back again; on a failed
first attempt the fallback re-issues the insecure request iff the URL is
secure and the error looks like a certificate problem, else the failure
propagates; a status failure never looks like a certificate problem. -/
theorem c6_status_and_fallback :
    (∀ (net : Network) (url : Str) (st : Nat) (body : Str),
      net url = .resp st body → ¬ (200 ≤ st ∧ st < 300) →
      fetchAttempt net url = .error ⟨"Error".data, statusErrorMessage st⟩) ∧
    (∀ (net : Network) (url : Str), fetchModel net url true = fetchAttempt net url) ∧
    (∀ (net : Network) (url : Str) (e : JsError),
      fetchAttempt net url = .error e →
      fetchModel net url false =
        (if ("https://".data.isPrefixOf url && looksCertError e) = true
         then fetchAttempt net (downgradeUrl url)
         else .error e)) ∧
    (∀ st : Nat, looksCertError ⟨"Error".data, statusErrorMessage st⟩ = false) := by
  refine ⟨?_, fetchModel_retry, fetchModel_first, ?_⟩
  · intro net url st body hnet hst
    simp [fetchAttempt, hnet, hst]
  · intro st
    have hc1 : containsSub "certificate".data (statusErrorMessage st) = false := by
      apply containsSub_append_digits _ _ _ (natDecimal_digits st)
        (by decide) (by decide) (by decide)
    have hc2 : containsSub "cert".data (statusErrorMessage st) = false := by
      apply containsSub_append_digits _ _ _ (natDecimal_digits st)
        (by decide) (by decide) (by decide)
    simp only [looksCertError, hc1, hc2, Bool.false_or]
    decide

/-- The network of the status-error witness: always a 503 response. -/
def netStatus : Network := fun _ => .resp 503 []

/-- Witness: a 503 response is a failure carrying the code, it never
triggers the certificate fallback, and a retry attempt never re-issues. -/
theorem c6_status_and_fallback_witness :
    fetchAttempt netStatus "https://www.fail.com".data =
      .error ⟨"Error".data, statusErrorMessage 503⟩ ∧
    looksCertError ⟨"Error".data, statusErrorMessage 503⟩ = false ∧
    fetchModel netStatus "https://www.fail.com".data true =
      fetchAttempt netStatus "https://www.fail.com".data :=
  ⟨c6_status_and_fallback.1 netStatus "https://www.fail.com".data 503 [] rfl
      (by decide),
   c6_status_and_fallback.2.2.2 503,
   c6_status_and_fallback.2.1 netStatus "https://www.fail.com".data⟩

/-- The pure outcome of one UrlProcessor.processUrl attempt: the record on
fetch success, nothing on a thrown failure (the caller then schedules the
retry or emits the bare record). -/
def processUrlResult (net : Network) (secret url : Str) (isRetry : Bool) :
    Option OutputData :=
  match fetchModel net url isRetry with
  | .ok body => some (buildOutput secret url body)
  | .error _ => none

/-- C10: a successful processUrl attempt always carries the original
canonical URL in its record, and in particular when the secure attempt
fails with a certificate-looking error and the downgraded insecure attempt
succeeds, the record is built for the original secure URL. -/
theorem c10_downgrade_keeps_url :
    (∀ (net : Network) (secret url : Str) (isRetry : Bool) (r : OutputData),
      processUrlResult net secret url isRetry = some r → r.url = url) ∧
    (∀ (net : Network) (secret url body : Str) (e : JsError),
      net url = .err e → looksCertError e = true →
      "https://".data.isPrefixOf url = true →
      fetchAttempt net (downgradeUrl url) = .ok body →
      processUrlResult net secret url false = some (buildOutput secret url body)) := by
  constructor
  · intro net secret url isRetry r h
    simp only [processUrlResult] at h
    rcases hf : fetchModel net url isRetry with e | body
    · rw [hf] at h
      exact absurd h (by simp)
    · rw [hf] at h
      simp only [Option.some.injEq] at h
      rw [← h]
      rfl
  · intro net secret url body e hnet hcert hsec hdown
    have hfa : fetchAttempt net url = .error e := by
      simp [fetchAttempt, hnet]
    simp only [processUrlResult, fetchModel_first net url e hfa, hsec, hcert,
      Bool.and_self, if_pos, hdown]

/-- The network of the downgrade witness: the secure URL fails with a
TypeError, the insecure variant serves a page. -/
def netCert : Network := fun u =>
  if u = "https://www.cert-fail.com".data then
    .err ⟨"TypeError".data, "fetch failed".data⟩
  else .resp 200 "<html><title>HTTP Success</title></html>".data

/-- Witness: the repository test scenario for the certificate fallback;
the output record still carries the secure URL. -/
theorem c10_downgrade_keeps_url_witness :
    processUrlResult netCert "secret".data "https://www.cert-fail.com".data false =
      some (buildOutput "secret".data "https://www.cert-fail.com".data
        "<html><title>HTTP Success</title></html>".data) ∧
    (buildOutput "secret".data "https://www.cert-fail.com".data
        "<html><title>HTTP Success</title></html>".data).url =
      "https://www.cert-fail.com".data :=
  ⟨c10_downgrade_keeps_url.2 netCert "secret".data "https://www.cert-fail.com".data
      "<html><title>HTTP Success</title></html>".data
      ⟨"TypeError".data, "fetch failed".data⟩
      rfl (by decide) (by decide) rfl,
   rfl⟩

/-! ## UrlProcessor: queue, retry and completion accounting

A small-step model of one UrlProcessor instance driven by the Node event
loop.  Each step is one synchronous segment of the source: _transform,
_flush, dequeuing a task in processQueue, a task resolving (its fetch
settling, including the scheduleRetry call or the retry decrement in its
finally block), the loop exiting (isProcessing reset plus checkAndFlush),
and a retry timer firing.  Steps interleave arbitrarily, which covers the
suspension points of the single-threaded run.  The lists tasksCreated,
retriesScheduled, firstDoneS, firstDoneF and retryDone are observation
ghosts recording created tasks, scheduleRetry calls and resolved attempts;
callbackFires and alldoneCount count the flush callback and the alldone
event. -/

structure Task where
  url : Str
  isRetry : Bool
deriving DecidableEq

structure ProcState where
  seenUrls : List Str
  taskQueue : List Task
  isProcessing : Bool
  flushStored : Bool
  pendingRetries : Nat
  executing : Option Task
  timers : List Str
  streamEnded : Bool
  callbackFires : Nat
  alldoneCount : Nat
  outputs : List OutputData
  tasksCreated : List Task
  retriesScheduled : List Str
  firstDoneS : List Str
  firstDoneF : List Str
  retryDone : List Str
deriving DecidableEq

def initProc : ProcState :=
  ⟨[], [], false, false, 0, none, [], false, 0, 0, [], [], [], [], [], []⟩

/-- UrlProcessor._transform on one bracket group: extract the canonical
URL, drop it silently when absent or already seen, otherwise add it to the
dedup set, push a first-attempt task and kick the queue. -/
def applyTransform (s : ProcState) (g : Str) : ProcState :=
  match extractUrl g with
  | none => s
  | some u =>
    if u ∈ s.seenUrls then s
    else
      { s with
        seenUrls := s.seenUrls ++ [u],
        taskQueue := s.taskQueue ++ [⟨u, false⟩],
        tasksCreated := s.tasksCreated ++ [⟨u, false⟩],
        isProcessing := true }

/-- UrlProcessor._flush: fire the callback at once when the queue is
empty, nothing is processing and no retry is pending; otherwise store the
callback and kick the queue. -/
def applyFlush (s : ProcState) : ProcState :=
  if s.taskQueue = [] ∧ s.isProcessing = false ∧ s.pendingRetries = 0 then
    { s with streamEnded := true, callbackFires := s.callbackFires + 1 }
  else
    { s with streamEnded := true, flushStored := true, isProcessing := true }

/-- The processQueue loop dequeues the head task and starts executing it. -/
def applyDequeue (s : ProcState) (t : Task) (rest : List Task) : ProcState :=
  { s with taskQueue := rest, executing := some t }

/-- A task resolving with a fetched body: processUrl pushes the built
record; a retry task also decrements the pending-retry counter in its
finally block. -/
def applyTaskSuccess (secret : Str) (s : ProcState) (t : Task) (body : Str) :
    ProcState :=
  if t.isRetry then
    { s with executing := none,
             outputs := s.outputs ++ [buildOutput secret t.url body],
             pendingRetries := s.pendingRetries - 1,
             retryDone := s.retryDone ++ [t.url] }
  else
    { s with executing := none,
             outputs := s.outputs ++ [buildOutput secret t.url body],
             firstDoneS := s.firstDoneS ++ [t.url] }

/-- A task resolving with a thrown failure: a retry task emits the bare
record and decrements the counter; a first attempt calls scheduleRetry,
which increments the counter and arms a timer. -/
def applyTaskFailure (s : ProcState) (t : Task) : ProcState :=
  if t.isRetry then
    { s with executing := none,
             outputs := s.outputs ++ [⟨t.url, none, none⟩],
             pendingRetries := s.pendingRetries - 1,
             retryDone := s.retryDone ++ [t.url] }
  else
    { s with executing := none,
             pendingRetries := s.pendingRetries + 1,
             timers := s.timers ++ [t.url],
             retriesScheduled := s.retriesScheduled ++ [t.url],
             firstDoneF := s.firstDoneF ++ [t.url] }

/-- The processQueue loop exiting on an empty queue: isProcessing is
cleared and checkAndFlush runs in the same synchronous segment; it fires
the stored callback and emits alldone only when the queue is empty,
nothing is processing and no retry is pending. -/
def applyWorkerExit (s : ProcState) : ProcState :=
  if s.flushStored = true ∧ s.taskQueue = [] ∧ s.pendingRetries = 0 then
    { s with isProcessing := false, flushStored := false,
             callbackFires := s.callbackFires + 1,
             alldoneCount := s.alldoneCount + 1 }
  else { s with isProcessing := false }

/-- A retry timer firing: push a retry task for the same URL and kick the
queue; the pending-retry counter stays up until the retry task resolves. -/
def applyTimerFire (s : ProcState) (u : Str) (rest : List Str) : ProcState :=
  { s with timers := rest,
           taskQueue := s.taskQueue ++ [⟨u, true⟩],
           tasksCreated := s.tasksCreated ++ [⟨u, true⟩],
           isProcessing := true }

/-- One event-loop step of a processor run with the given secret. -/
inductive Step (secret : Str) : ProcState → ProcState → Prop
  | transform (s : ProcState) (g : Str) (hse : s.streamEnded = false) :
      Step secret s (applyTransform s g)
  | streamEnd (s : ProcState) (hse : s.streamEnded = false) :
      Step secret s (applyFlush s)
  | dequeue (s : ProcState) (t : Task) (rest : List Task)
      (hp : s.isProcessing = true) (he : s.executing = none)
      (hq : s.taskQueue = t :: rest) :
      Step secret s (applyDequeue s t rest)
  | taskSuccess (s : ProcState) (t : Task) (body : Str)
      (he : s.executing = some t) :
      Step secret s (applyTaskSuccess secret s t body)
  | taskFailure (s : ProcState) (t : Task) (he : s.executing = some t) :
      Step secret s (applyTaskFailure s t)
  | workerExit (s : ProcState) (hp : s.isProcessing = true)
      (he : s.executing = none) (hq : s.taskQueue = []) :
      Step secret s (applyWorkerExit s)
  | timerFire (s : ProcState) (u : Str) (rest : List Str)
      (ht : s.timers = u :: rest) :
      Step secret s (applyTimerFire s u rest)

/-- The states of a processor run from a fresh instance. -/
inductive Reachable (secret : Str) : ProcState → Prop
  | init : Reachable secret initProc
  | step {s s' : ProcState} : Reachable secret s → Step secret s s' →
      Reachable secret s'

/-! Counting helpers for the accounting invariant. -/

def strCount (u : Str) (l : List Str) : Nat := l.countP (fun v => decide (v = u))

def firstCount (u : Str) (ts : List Task) : Nat :=
  ts.countP (fun t => decide (t.url = u) && !t.isRetry)

def retryCount (u : Str) (ts : List Task) : Nat :=
  ts.countP (fun t => decide (t.url = u) && t.isRetry)

def taskCount (u : Str) (ts : List Task) : Nat :=
  ts.countP (fun t => decide (t.url = u))

def outCount (u : Str) (os : List OutputData) : Nat :=
  os.countP (fun o => decide (o.url = u))

def execFirst (u : Str) : Option Task → Nat
  | some t => if t.url = u ∧ t.isRetry = false then 1 else 0
  | none => 0

def execRetry (u : Str) : Option Task → Nat
  | some t => if t.url = u ∧ t.isRetry = true then 1 else 0
  | none => 0

def retryLoad (ts : List Task) : Nat := ts.countP (fun t => t.isRetry)

def execLoad : Option Task → Nat
  | some t => if t.isRetry then 1 else 0
  | none => 0

/-- The run invariant: completion accounting and per-URL conservation. -/
structure Inv (s : ProcState) : Prop where
  execProc : s.executing ≠ none → s.isProcessing = true
  preEnd : s.streamEnded = false →
    s.flushStored = false ∧ s.callbackFires = 0 ∧ s.alldoneCount = 0
  postEnd : s.streamEnded = true →
    (s.flushStored = true ∧ s.callbackFires = 0) ∨
    (s.flushStored = false ∧ s.callbackFires = 1)
  pending : s.pendingRetries =
    s.timers.length + retryLoad s.taskQueue + execLoad s.executing
  quiet : s.streamEnded = true → s.taskQueue = [] → s.executing = none →
    s.isProcessing = false → s.timers = [] → s.flushStored = false
  seenFirst : ∀ u, firstCount u s.tasksCreated = (if u ∈ s.seenUrls then 1 else 0)
  firstBalance : ∀ u, firstCount u s.tasksCreated =
    firstCount u s.taskQueue + execFirst u s.executing +
      strCount u s.firstDoneS + strCount u s.firstDoneF
  schedEq : ∀ u, strCount u s.retriesScheduled = strCount u s.firstDoneF
  schedBalance : ∀ u, strCount u s.retriesScheduled =
    strCount u s.timers + retryCount u s.tasksCreated
  retryBalance : ∀ u, retryCount u s.tasksCreated =
    retryCount u s.taskQueue + execRetry u s.executing + strCount u s.retryDone
  outEq : ∀ u, outCount u s.outputs =
    strCount u s.firstDoneS + strCount u s.retryDone

theorem inv_init : Inv initProc := by
  constructor <;>
    simp [initProc, strCount, firstCount, retryCount, outCount, execFirst,
      execRetry, retryLoad, execLoad]

theorem strCount_append (u v : Str) (l : List Str) :
    strCount u (l ++ [v]) = strCount u l + (if v = u then 1 else 0) := by
  by_cases h : v = u <;> simp [strCount, List.countP_append, h]

theorem taskCount_append (u : Str) (t : Task) (ts : List Task) :
    taskCount u (ts ++ [t]) = taskCount u ts + (if t.url = u then 1 else 0) := by
  by_cases h : t.url = u <;> simp [taskCount, List.countP_append, h]

theorem firstCount_append (u : Str) (t : Task) (ts : List Task) :
    firstCount u (ts ++ [t]) =
      firstCount u ts + (if t.url = u ∧ t.isRetry = false then 1 else 0) := by
  rcases t with ⟨w, b⟩
  by_cases h : w = u <;> cases b <;> simp [firstCount, List.countP_append, h]

theorem retryCount_append (u : Str) (t : Task) (ts : List Task) :
    retryCount u (ts ++ [t]) =
      retryCount u ts + (if t.url = u ∧ t.isRetry = true then 1 else 0) := by
  rcases t with ⟨w, b⟩
  by_cases h : w = u <;> cases b <;> simp [retryCount, List.countP_append, h]

theorem outCount_append (u : Str) (o : OutputData) (os : List OutputData) :
    outCount u (os ++ [o]) = outCount u os + (if o.url = u then 1 else 0) := by
  by_cases h : o.url = u <;> simp [outCount, List.countP_append, h]

theorem retryLoad_append (t : Task) (ts : List Task) :
    retryLoad (ts ++ [t]) = retryLoad ts + (if t.isRetry then 1 else 0) := by
  cases hb : t.isRetry <;> simp [retryLoad, List.countP_append, hb]

theorem firstCount_cons (u : Str) (t : Task) (ts : List Task) :
    firstCount u (t :: ts) =
      firstCount u ts + (if t.url = u ∧ t.isRetry = false then 1 else 0) := by
  rcases t with ⟨w, b⟩
  by_cases h : w = u <;> cases b <;> simp [firstCount, List.countP_cons, h]

theorem retryCount_cons (u : Str) (t : Task) (ts : List Task) :
    retryCount u (t :: ts) =
      retryCount u ts + (if t.url = u ∧ t.isRetry = true then 1 else 0) := by
  rcases t with ⟨w, b⟩
  by_cases h : w = u <;> cases b <;> simp [retryCount, List.countP_cons, h]

theorem retryLoad_cons (t : Task) (ts : List Task) :
    retryLoad (t :: ts) = retryLoad ts + (if t.isRetry then 1 else 0) := by
  cases hb : t.isRetry <;> simp [retryLoad, List.countP_cons, hb]

theorem taskCount_split (u : Str) (ts : List Task) :
    taskCount u ts = firstCount u ts + retryCount u ts := by
  induction ts with
  | nil => simp [taskCount, firstCount, retryCount]
  | cons t ts ih =>
    rcases t with ⟨w, b⟩
    by_cases h : w = u <;> cases b <;>
      simp [taskCount, firstCount, retryCount, List.countP_cons, h] at ih ⊢ <;>
      omega

theorem inv_transform (s : ProcState) (g : Str) (hs : Inv s) :
    Inv (applyTransform s g) := by
  unfold applyTransform
  rcases extractUrl g with _ | u
  · exact hs
  · by_cases hu : u ∈ s.seenUrls
    · simp only [if_pos hu]
      exact hs
    · simp only [if_neg hu]
      refine ⟨?_, ?_, ?_, ?_, ?_, ?_, ?_, ?_, ?_, ?_, ?_⟩
      · intro _
        rfl
      · exact hs.preEnd
      · exact hs.postEnd
      · show s.pendingRetries =
          s.timers.length + retryLoad (s.taskQueue ++ [⟨u, false⟩]) +
            execLoad s.executing
        rw [retryLoad_append]
        simp [hs.pending]
      · intro _ _ _ hproc
        simp at hproc
      · intro v
        show firstCount v (s.tasksCreated ++ [⟨u, false⟩]) =
          if v ∈ s.seenUrls ++ [u] then 1 else 0
        rw [firstCount_append]
        by_cases hv : u = v
        · subst hv
          rw [hs.seenFirst u]
          simp [hu]
        · have hv2 : ¬ (v = u) := fun h => hv h.symm
          rw [hs.seenFirst v]
          simp [hv, hv2, List.mem_append]
      · intro v
        show firstCount v (s.tasksCreated ++ [⟨u, false⟩]) =
          firstCount v (s.taskQueue ++ [⟨u, false⟩]) + execFirst v s.executing +
            strCount v s.firstDoneS + strCount v s.firstDoneF
        rw [firstCount_append, firstCount_append, hs.firstBalance v]
        omega
      · exact hs.schedEq
      · intro v
        show strCount v s.retriesScheduled =
          strCount v s.timers + retryCount v (s.tasksCreated ++ [⟨u, false⟩])
        rw [retryCount_append]
        simp [hs.schedBalance v]
      · intro v
        show retryCount v (s.tasksCreated ++ [⟨u, false⟩]) =
          retryCount v (s.taskQueue ++ [⟨u, false⟩]) + execRetry v s.executing +
            strCount v s.retryDone
        rw [retryCount_append, retryCount_append, hs.retryBalance v]
        omega
      · exact hs.outEq

theorem strCount_cons (u v : Str) (l : List Str) :
    strCount u (v :: l) = strCount u l + (if v = u then 1 else 0) := by
  by_cases h : v = u <;> simp [strCount, List.countP_cons, h]

theorem inv_flush (s : ProcState) (hse : s.streamEnded = false) (hs : Inv s) :
    Inv (applyFlush s) := by
  obtain ⟨hfs, hcf, had⟩ := hs.preEnd hse
  unfold applyFlush
  split_ifs with hc
  · refine ⟨hs.execProc, ?_, ?_, hs.pending, ?_, hs.seenFirst, hs.firstBalance,
      hs.schedEq, hs.schedBalance, hs.retryBalance, hs.outEq⟩
    · intro h
      simp at h
    · intro _
      right
      exact ⟨hfs, by rw [hcf]⟩
    · intro _ _ _ _ _
      exact hfs
  · refine ⟨?_, ?_, ?_, hs.pending, ?_, hs.seenFirst, hs.firstBalance,
      hs.schedEq, hs.schedBalance, hs.retryBalance, hs.outEq⟩
    · intro _
      rfl
    · intro h
      simp at h
    · intro _
      left
      exact ⟨rfl, hcf⟩
    · intro _ _ _ hproc
      simp at hproc

theorem inv_dequeue (s : ProcState) (t : Task) (rest : List Task)
    (hp : s.isProcessing = true) (he : s.executing = none)
    (hq : s.taskQueue = t :: rest) (hs : Inv s) :
    Inv (applyDequeue s t rest) := by
  unfold applyDequeue
  refine ⟨?_, hs.preEnd, hs.postEnd, ?_, ?_, hs.seenFirst, ?_, hs.schedEq,
    hs.schedBalance, ?_, hs.outEq⟩
  · intro _
    exact hp
  · show s.pendingRetries = s.timers.length + retryLoad rest + execLoad (some t)
    have hpd := hs.pending
    rw [hq, he] at hpd
    rw [retryLoad_cons] at hpd
    cases hb : t.isRetry <;> rw [hb] at hpd <;> simp [execLoad, hb] at hpd ⊢ <;>
      omega
  · intro _ _ hex
    simp at hex
  · intro v
    have hf := hs.firstBalance v
    rw [hq, he, firstCount_cons] at hf
    show firstCount v s.tasksCreated =
      firstCount v rest + execFirst v (some t) + strCount v s.firstDoneS +
        strCount v s.firstDoneF
    by_cases hb : t.url = v ∧ t.isRetry = false <;>
      simp [execFirst, hb] at hf ⊢ <;> omega
  · intro v
    have hr := hs.retryBalance v
    rw [hq, he, retryCount_cons] at hr
    show retryCount v s.tasksCreated =
      retryCount v rest + execRetry v (some t) + strCount v s.retryDone
    by_cases hb : t.url = v ∧ t.isRetry = true <;>
      simp [execRetry, hb] at hr ⊢ <;> omega

theorem inv_taskSuccess (secret : Str) (s : ProcState) (t : Task) (body : Str)
    (he : s.executing = some t) (hs : Inv s) :
    Inv (applyTaskSuccess secret s t body) := by
  have hproc : s.isProcessing = true := hs.execProc (by rw [he]; simp)
  unfold applyTaskSuccess
  split_ifs with hb
  · refine ⟨?_, hs.preEnd, hs.postEnd, ?_, ?_, hs.seenFirst, ?_, hs.schedEq,
      hs.schedBalance, ?_, ?_⟩
    · intro hex
      exact absurd rfl hex
    · have hpd := hs.pending
      rw [he] at hpd
      show s.pendingRetries - 1 =
        s.timers.length + retryLoad s.taskQueue + execLoad none
      simp [execLoad, hb] at hpd ⊢
      omega
    · intro _ _ _ hpr
      rw [hproc] at hpr
      exact absurd hpr (by simp)
    · intro v
      have hf := hs.firstBalance v
      rw [he] at hf
      show firstCount v s.tasksCreated =
        firstCount v s.taskQueue + execFirst v none + strCount v s.firstDoneS +
          strCount v s.firstDoneF
      simp [execFirst, hb] at hf ⊢
      omega
    · intro v
      have hr := hs.retryBalance v
      rw [he] at hr
      show retryCount v s.tasksCreated =
        retryCount v s.taskQueue + execRetry v none +
          strCount v (s.retryDone ++ [t.url])
      rw [strCount_append]
      by_cases hv : t.url = v <;> simp [execRetry, hb, hv] at hr ⊢ <;> omega
    · intro v
      show outCount v (s.outputs ++ [buildOutput secret t.url body]) =
        strCount v s.firstDoneS + strCount v (s.retryDone ++ [t.url])
      rw [outCount_append, strCount_append, hs.outEq v]
      have hurl : (buildOutput secret t.url body).url = t.url := rfl
      rw [hurl]
      omega
  · refine ⟨?_, hs.preEnd, hs.postEnd, ?_, ?_, hs.seenFirst, ?_, hs.schedEq,
      hs.schedBalance, ?_, ?_⟩
    · intro hex
      exact absurd rfl hex
    · have hpd := hs.pending
      rw [he] at hpd
      show s.pendingRetries =
        s.timers.length + retryLoad s.taskQueue + execLoad none
      simp [execLoad, hb] at hpd ⊢
      omega
    · intro _ _ _ hpr
      rw [hproc] at hpr
      exact absurd hpr (by simp)
    · intro v
      have hf := hs.firstBalance v
      rw [he] at hf
      show firstCount v s.tasksCreated =
        firstCount v s.taskQueue + execFirst v none +
          strCount v (s.firstDoneS ++ [t.url]) + strCount v s.firstDoneF
      rw [strCount_append]
      by_cases hv : t.url = v <;> simp [execFirst, hb, hv] at hf ⊢ <;> omega
    · intro v
      have hr := hs.retryBalance v
      rw [he] at hr
      show retryCount v s.tasksCreated =
        retryCount v s.taskQueue + execRetry v none + strCount v s.retryDone
      simp [execRetry, hb] at hr ⊢
      omega
    · intro v
      show outCount v (s.outputs ++ [buildOutput secret t.url body]) =
        strCount v (s.firstDoneS ++ [t.url]) + strCount v s.retryDone
      rw [outCount_append, strCount_append, hs.outEq v]
      have hurl : (buildOutput secret t.url body).url = t.url := rfl
      rw [hurl]
      omega

theorem inv_taskFailure (s : ProcState) (t : Task)
    (he : s.executing = some t) (hs : Inv s) :
    Inv (applyTaskFailure s t) := by
  have hproc : s.isProcessing = true := hs.execProc (by rw [he]; simp)
  unfold applyTaskFailure
  split_ifs with hb
  · refine ⟨?_, hs.preEnd, hs.postEnd, ?_, ?_, hs.seenFirst, ?_, hs.schedEq,
      hs.schedBalance, ?_, ?_⟩
    · intro hex
      exact absurd rfl hex
    · have hpd := hs.pending
      rw [he] at hpd
      show s.pendingRetries - 1 =
        s.timers.length + retryLoad s.taskQueue + execLoad none
      simp [execLoad, hb] at hpd ⊢
      omega
    · intro _ _ _ hpr
      rw [hproc] at hpr
      exact absurd hpr (by simp)
    · intro v
      have hf := hs.firstBalance v
      rw [he] at hf
      show firstCount v s.tasksCreated =
        firstCount v s.taskQueue + execFirst v none + strCount v s.firstDoneS +
          strCount v s.firstDoneF
      simp [execFirst, hb] at hf ⊢
      omega
    · intro v
      have hr := hs.retryBalance v
      rw [he] at hr
      show retryCount v s.tasksCreated =
        retryCount v s.taskQueue + execRetry v none +
          strCount v (s.retryDone ++ [t.url])
      rw [strCount_append]
      by_cases hv : t.url = v <;> simp [execRetry, hb, hv] at hr ⊢ <;> omega
    · intro v
      show outCount v (s.outputs ++ [(⟨t.url, none, none⟩ : OutputData)]) =
        strCount v s.firstDoneS + strCount v (s.retryDone ++ [t.url])
      rw [outCount_append, strCount_append, hs.outEq v]
      have hurl : (⟨t.url, none, none⟩ : OutputData).url = t.url := rfl
      rw [hurl]
      omega
  · refine ⟨?_, hs.preEnd, hs.postEnd, ?_, ?_, hs.seenFirst, ?_, ?_, ?_, ?_,
      hs.outEq⟩
    · intro hex
      exact absurd rfl hex
    · have hpd := hs.pending
      rw [he] at hpd
      show s.pendingRetries + 1 =
        (s.timers ++ [t.url]).length + retryLoad s.taskQueue + execLoad none
      simp [execLoad, hb, List.length_append] at hpd ⊢
      omega
    · intro _ _ _ hpr
      rw [hproc] at hpr
      exact absurd hpr (by simp)
    · intro v
      have hf := hs.firstBalance v
      rw [he] at hf
      show firstCount v s.tasksCreated =
        firstCount v s.taskQueue + execFirst v none + strCount v s.firstDoneS +
          strCount v (s.firstDoneF ++ [t.url])
      rw [strCount_append]
      by_cases hv : t.url = v <;> simp [execFirst, hb, hv] at hf ⊢ <;> omega
    · intro v
      show strCount v (s.retriesScheduled ++ [t.url]) =
        strCount v (s.firstDoneF ++ [t.url])
      rw [strCount_append, strCount_append, hs.schedEq v]
    · intro v
      show strCount v (s.retriesScheduled ++ [t.url]) =
        strCount v (s.timers ++ [t.url]) + retryCount v s.tasksCreated
      rw [strCount_append, strCount_append, hs.schedBalance v]
      omega
    · intro v
      have hr := hs.retryBalance v
      rw [he] at hr
      show retryCount v s.tasksCreated =
        retryCount v s.taskQueue + execRetry v none + strCount v s.retryDone
      simp [execRetry, hb] at hr ⊢
      omega

theorem inv_workerExit (s : ProcState) (hp : s.isProcessing = true)
    (he : s.executing = none) (hq : s.taskQueue = []) (hs : Inv s) :
    Inv (applyWorkerExit s) := by
  unfold applyWorkerExit
  split_ifs with hc
  · obtain ⟨hfs, hq1, hr⟩ := hc
    have hse : s.streamEnded = true := by
      by_contra hne
      have h0 := (hs.preEnd (by simpa using hne)).1
      rw [h0] at hfs
      exact absurd hfs (by simp)
    have hcf0 : s.callbackFires = 0 := by
      rcases hs.postEnd hse with ⟨_, h0⟩ | ⟨hsf, _⟩
      · exact h0
      · rw [hsf] at hfs
        exact absurd hfs (by simp)
    refine ⟨?_, ?_, ?_, hs.pending, ?_, hs.seenFirst, hs.firstBalance,
      hs.schedEq, hs.schedBalance, hs.retryBalance, hs.outEq⟩
    · intro hex
      exact absurd he hex
    · intro h
      rw [hse] at h
      exact absurd h (by simp)
    · intro _
      right
      exact ⟨rfl, by rw [hcf0]⟩
    · intro _ _ _ _ _
      rfl
  · refine ⟨?_, hs.preEnd, hs.postEnd, hs.pending, ?_, hs.seenFirst,
      hs.firstBalance, hs.schedEq, hs.schedBalance, hs.retryBalance, hs.outEq⟩
    · intro hex
      exact absurd he hex
    · intro hse hq2 hex hpr htm
      by_contra hsf
      apply hc
      refine ⟨by simpa using hsf, hq, ?_⟩
      rw [hs.pending, he, htm, hq]
      simp [retryLoad, execLoad]

theorem inv_timerFire (s : ProcState) (u : Str) (rest : List Str)
    (ht : s.timers = u :: rest) (hs : Inv s) :
    Inv (applyTimerFire s u rest) := by
  unfold applyTimerFire
  refine ⟨?_, hs.preEnd, hs.postEnd, ?_, ?_, ?_, ?_, hs.schedEq, ?_, ?_,
    hs.outEq⟩
  · intro _
    rfl
  · have hpd := hs.pending
    rw [ht] at hpd
    show s.pendingRetries =
      rest.length + retryLoad (s.taskQueue ++ [⟨u, true⟩]) + execLoad s.executing
    rw [retryLoad_append]
    simp at hpd ⊢
    omega
  · intro _ _ _ hproc
    simp at hproc
  · intro v
    show firstCount v (s.tasksCreated ++ [⟨u, true⟩]) =
      if v ∈ s.seenUrls then 1 else 0
    rw [firstCount_append]
    simp [hs.seenFirst v]
  · intro v
    show firstCount v (s.tasksCreated ++ [⟨u, true⟩]) =
      firstCount v (s.taskQueue ++ [⟨u, true⟩]) + execFirst v s.executing +
        strCount v s.firstDoneS + strCount v s.firstDoneF
    rw [firstCount_append, firstCount_append, hs.firstBalance v]
    simp
  · intro v
    have hbal := hs.schedBalance v
    rw [ht, strCount_cons] at hbal
    show strCount v s.retriesScheduled =
      strCount v rest + retryCount v (s.tasksCreated ++ [⟨u, true⟩])
    rw [retryCount_append]
    by_cases hv : u = v <;> simp [hv] at hbal ⊢ <;> omega
  · intro v
    show retryCount v (s.tasksCreated ++ [⟨u, true⟩]) =
      retryCount v (s.taskQueue ++ [⟨u, true⟩]) + execRetry v s.executing +
        strCount v s.retryDone
    rw [retryCount_append, retryCount_append, hs.retryBalance v]
    omega

theorem inv_step (secret : Str) {s s' : ProcState} (hs : Inv s)
    (h : Step secret s s') : Inv s' := by
  cases h with
  | transform g hse => exact inv_transform s g hs
  | streamEnd hse => exact inv_flush s hse hs
  | dequeue t rest hp he hq => exact inv_dequeue s t rest hp he hq hs
  | taskSuccess t body he => exact inv_taskSuccess secret s t body he hs
  | taskFailure t he => exact inv_taskFailure s t he hs
  | workerExit hp he hq => exact inv_workerExit s hp he hq hs
  | timerFire u rest ht => exact inv_timerFire s u rest ht hs

theorem reachable_inv (secret : Str) {s : ProcState} (h : Reachable secret s) :
    Inv s := by
  induction h with
  | init => exact inv_init
  | step _ hstep ih => exact inv_step secret ih hstep

theorem transform_ghost (s : ProcState) (g : Str) :
    (applyTransform s g).callbackFires = s.callbackFires ∧
    (applyTransform s g).alldoneCount = s.alldoneCount ∧
    (applyTransform s g).flushStored = s.flushStored := by
  unfold applyTransform
  rcases extractUrl g with _ | u
  · exact ⟨rfl, rfl, rfl⟩
  · by_cases hu : u ∈ s.seenUrls <;> simp [hu]

theorem taskSuccess_ghost (secret : Str) (s : ProcState) (t : Task) (body : Str) :
    (applyTaskSuccess secret s t body).callbackFires = s.callbackFires ∧
    (applyTaskSuccess secret s t body).alldoneCount = s.alldoneCount ∧
    (applyTaskSuccess secret s t body).flushStored = s.flushStored := by
  unfold applyTaskSuccess
  split_ifs <;> exact ⟨rfl, rfl, rfl⟩

theorem taskFailure_ghost (s : ProcState) (t : Task) :
    (applyTaskFailure s t).callbackFires = s.callbackFires ∧
    (applyTaskFailure s t).alldoneCount = s.alldoneCount ∧
    (applyTaskFailure s t).flushStored = s.flushStored := by
  unfold applyTaskFailure
  split_ifs <;> exact ⟨rfl, rfl, rfl⟩

/-- C1: in every run the completion callback fires at most once, a step
that fires it leaves the queue empty, nothing executing, the worker idle,
the pending-retry counter zero and no armed timer; and in every quiescent
ended run it has fired exactly once. -/
theorem c1_completion_accounting (secret : Str) (s : ProcState)
    (hs : Reachable secret s) :
    s.callbackFires ≤ 1 ∧
    (∀ s', Step secret s s' → s'.callbackFires = s.callbackFires + 1 →
      s'.taskQueue = [] ∧ s'.executing = none ∧ s'.isProcessing = false ∧
      s'.pendingRetries = 0 ∧ s'.timers = []) ∧
    (s.streamEnded = true → s.taskQueue = [] → s.executing = none →
      s.isProcessing = false → s.timers = [] → s.callbackFires = 1) := by
  have hinv := reachable_inv secret hs
  refine ⟨?_, ?_, ?_⟩
  · cases hse : s.streamEnded
    · have := (hinv.preEnd hse).2.1
      omega
    · rcases hinv.postEnd hse with ⟨_, h0⟩ | ⟨_, h1⟩ <;> omega
  · intro s' hstep hfire
    cases hstep with
    | transform g hse =>
      have h1 := (transform_ghost s g).1
      omega
    | streamEnd hse =>
      unfold applyFlush at hfire ⊢
      split_ifs at hfire ⊢ with hc
      · obtain ⟨hq, hpr, hr⟩ := hc
        have hex : s.executing = none := by
          by_contra hex
          have := hinv.execProc hex
          rw [hpr] at this
          exact absurd this (by simp)
        have htm : s.timers = [] := by
          have hp := hinv.pending
          rw [hr] at hp
          have : s.timers.length = 0 := by omega
          exact List.length_eq_zero.mp this
        exact ⟨hq, hex, hpr, hr, htm⟩
      · exfalso
        simp only at hfire
        omega
    | dequeue t rest hp he hq =>
      have h1 : (applyDequeue s t rest).callbackFires = s.callbackFires := rfl
      omega
    | taskSuccess t body he =>
      have h1 := (taskSuccess_ghost secret s t body).1
      omega
    | taskFailure t he =>
      have h1 := (taskFailure_ghost s t).1
      omega
    | workerExit hp he hq =>
      unfold applyWorkerExit at hfire ⊢
      split_ifs at hfire ⊢ with hc
      · obtain ⟨hfs, hq1, hr⟩ := hc
        have htm : s.timers = [] := by
          have hp2 := hinv.pending
          rw [hr, hq, he] at hp2
          simp [retryLoad, execLoad] at hp2
          exact List.length_eq_zero.mp (by omega)
        exact ⟨hq, he, rfl, hr, htm⟩
      · exfalso
        simp only at hfire
        omega
    | timerFire u rest ht =>
      have h1 : (applyTimerFire s u rest).callbackFires = s.callbackFires := rfl
      omega
  · intro h1 hq hex hproc htm
    have hfs := hinv.quiet h1 hq hex hproc htm
    rcases hinv.postEnd h1 with ⟨h2, _⟩ | ⟨_, h3⟩
    · rw [hfs] at h2
      exact absurd h2 (by simp)
    · exact h3

/-- Witness: a run whose input ends with no work pending; the completion
callback has fired exactly once. -/
theorem c1_completion_accounting_witness :
    (applyFlush initProc).callbackFires = 1 :=
  (c1_completion_accounting "s".data (applyFlush initProc)
      (Reachable.step Reachable.init (Step.streamEnd initProc rfl))).2.2
    (by decide) (by decide) (by decide) (by decide) (by decide)

/-- C5: per canonical URL at most two tasks are ever created, a retry task
exists only after a failed first attempt, at most one output record is
ever emitted, and in a quiescent ended run exactly one record exists for
every URL that was ever enqueued. -/
theorem c5_task_output_accounting (secret : Str) (s : ProcState)
    (hs : Reachable secret s) (u : Str) :
    taskCount u s.tasksCreated ≤ 2 ∧
    retryCount u s.tasksCreated ≤ strCount u s.firstDoneF ∧
    outCount u s.outputs ≤ 1 ∧
    (s.streamEnded = true → s.taskQueue = [] → s.executing = none →
      s.isProcessing = false → s.timers = [] →
      outCount u s.outputs = (if u ∈ s.seenUrls then 1 else 0)) := by
  have hinv := reachable_inv secret hs
  have hsf := hinv.seenFirst u
  have hfb := hinv.firstBalance u
  have hseq := hinv.schedEq u
  have hsb := hinv.schedBalance u
  have hrb := hinv.retryBalance u
  have hoe := hinv.outEq u
  have hfc1 : firstCount u s.tasksCreated ≤ 1 := by
    rw [hsf]
    split <;> omega
  refine ⟨?_, ?_, ?_, ?_⟩
  · rw [taskCount_split]
    omega
  · omega
  · omega
  · intro h1 hq hex hproc htm
    have hq0f : firstCount u s.taskQueue = 0 := by
      rw [hq]
      simp [firstCount]
    have hq0r : retryCount u s.taskQueue = 0 := by
      rw [hq]
      simp [retryCount]
    have hex0f : execFirst u s.executing = 0 := by
      rw [hex]
      rfl
    have hex0r : execRetry u s.executing = 0 := by
      rw [hex]
      rfl
    have htm0 : strCount u s.timers = 0 := by
      rw [htm]
      simp [strCount]
    rw [hoe]
    by_cases hu : u ∈ s.seenUrls
    · rw [if_pos hu] at hsf
      rw [if_pos hu]
      omega
    · rw [if_neg hu] at hsf
      rw [if_neg hu]
      omega

/-- Witness: in the ended empty run, a URL that was never enqueued has no
output record. -/
theorem c5_task_output_accounting_witness :
    outCount "https://www.google.com".data (applyFlush initProc).outputs =
      (if "https://www.google.com".data ∈ (applyFlush initProc).seenUrls
       then 1 else 0) :=
  (c5_task_output_accounting "s".data (applyFlush initProc)
      (Reachable.step Reachable.init (Step.streamEnd initProc rfl))
      "https://www.google.com".data).2.2.2
    (by decide) (by decide) (by decide) (by decide) (by decide)

/-- C7: scheme canonicalization collapses the two textual variants of one
URL to one key; a bracket group whose canonical URL is already in the
dedup set changes nothing (no task, no output); the dedup set only grows;
and at most one first-attempt task is ever created per canonical URL. -/
theorem c7_dedup (secret : Str) :
    (∀ t : Str,
      ("http://".data.isPrefixOf t || "https://".data.isPrefixOf t) = false →
      canonicalize ("https://".data ++ t) = canonicalize t) ∧
    (∀ (s : ProcState) (g u : Str), extractUrl g = some u → u ∈ s.seenUrls →
      applyTransform s g = s) ∧
    (∀ s s' : ProcState, Step secret s s' → ∀ u, u ∈ s.seenUrls →
      u ∈ s'.seenUrls) ∧
    (∀ s : ProcState, Reachable secret s → ∀ u,
      firstCount u s.tasksCreated ≤ 1) := by
  refine ⟨?_, ?_, ?_, ?_⟩
  · intro t ht
    have h1 : "https://".data.isPrefixOf ("https://".data ++ t) = true :=
      isPrefixOf_append_self _ _
    simp only [canonicalize, h1, Bool.or_true, if_true]
    rw [if_neg (by simp [ht])]
  · intro s g u hgu hmem
    unfold applyTransform
    rw [hgu]
    simp [hmem]
  · intro s s' hstep u hu
    cases hstep with
    | transform g hse =>
      unfold applyTransform
      rcases extractUrl g with _ | v
      · exact hu
      · by_cases hv : v ∈ s.seenUrls
        · simp only [if_pos hv]
          exact hu
        · simp only [if_neg hv]
          simp only [List.mem_append]
          exact Or.inl hu
    | streamEnd hse =>
      unfold applyFlush
      split_ifs <;> exact hu
    | dequeue t rest hp he hq => exact hu
    | taskSuccess t body he =>
      unfold applyTaskSuccess
      split_ifs <;> exact hu
    | taskFailure t he =>
      unfold applyTaskFailure
      split_ifs <;> exact hu
    | workerExit hp he hq =>
      unfold applyWorkerExit
      split_ifs <;> exact hu
    | timerFire v rest ht => exact hu
  · intro s hr u
    have h1 := (reachable_inv secret hr).seenFirst u
    rw [h1]
    split <;> omega

/-- Witness: the repository dedup scenario; after seeing the unqualified
variant, the bracket group with the qualified variant changes nothing. -/
theorem c7_dedup_witness :
    applyTransform (applyTransform initProc "[www.google.com]".data)
        "[https://www.google.com]".data =
      applyTransform initProc "[www.google.com]".data :=
  (c7_dedup "s".data).2.1 (applyTransform initProc "[www.google.com]".data)
    "[https://www.google.com]".data "https://www.google.com".data
    (by decide) (by decide)

/-- C9 counterexample: a run whose can-finish conditions already hold when
the input ends; the completion callback fires but no alldone event is
emitted, refuting that the terminal signal accompanies the callback also
in this case. -/
theorem c9_immediate_flush_counterexample :
    Step "s".data initProc (applyFlush initProc) ∧
    (applyFlush initProc).callbackFires = 1 ∧
    (applyFlush initProc).alldoneCount = 0 :=
  ⟨Step.streamEnd initProc rfl, by decide, by decide⟩

/-- C9 (amended): the alldone event is raised at the same moment the
completion callback fires exactly when the callback had been stored for
deferred completion; in the immediate path at stream end the callback
fires without the alldone event. -/
theorem c9_alldone_with_stored_callback (secret : Str) (s s' : ProcState)
    (hs : Reachable secret s) (hstep : Step secret s s') :
    (s'.alldoneCount = s.alldoneCount + 1 ↔
      s.flushStored = true ∧ s'.callbackFires = s.callbackFires + 1) := by
  have hinv := reachable_inv secret hs
  cases hstep with
  | transform g hse =>
    obtain ⟨h1, h2, _⟩ := transform_ghost s g
    rw [h1, h2]
    simp
  | streamEnd hse =>
    obtain ⟨hfs, _, _⟩ := hinv.preEnd hse
    unfold applyFlush
    split_ifs with hc
    · show s.alldoneCount = s.alldoneCount + 1 ↔
        s.flushStored = true ∧ s.callbackFires + 1 = s.callbackFires + 1
      simp [hfs]
    · show s.alldoneCount = s.alldoneCount + 1 ↔
        s.flushStored = true ∧ s.callbackFires = s.callbackFires + 1
      simp
  | dequeue t rest hp he hq =>
    show s.alldoneCount = s.alldoneCount + 1 ↔
      s.flushStored = true ∧ s.callbackFires = s.callbackFires + 1
    simp
  | taskSuccess t body he =>
    obtain ⟨h1, h2, _⟩ := taskSuccess_ghost secret s t body
    rw [h1, h2]
    simp
  | taskFailure t he =>
    obtain ⟨h1, h2, _⟩ := taskFailure_ghost s t
    rw [h1, h2]
    simp
  | workerExit hp he hq =>
    unfold applyWorkerExit
    split_ifs with hc
    · show s.alldoneCount + 1 = s.alldoneCount + 1 ↔
        s.flushStored = true ∧ s.callbackFires + 1 = s.callbackFires + 1
      simp [hc.1]
    · show s.alldoneCount = s.alldoneCount + 1 ↔
        s.flushStored = true ∧ s.callbackFires = s.callbackFires + 1
      simp
  | timerFire u rest ht =>
    show s.alldoneCount = s.alldoneCount + 1 ↔
      s.flushStored = true ∧ s.callbackFires = s.callbackFires + 1
    simp

/-- Witness: at the immediate flush from the initial state, the amended
statement confirms that no alldone event is emitted. -/
theorem c9_alldone_with_stored_callback_witness :
    ¬ ((applyFlush initProc).alldoneCount = initProc.alldoneCount + 1) := by
  intro hc
  have h := (c9_alldone_with_stored_callback "s".data initProc
      (applyFlush initProc) Reachable.init (Step.streamEnd initProc rfl)).mp hc
  exact absurd h.1 (by decide)

end Squrly
